import Mathlib

/-!
# LSB steganography codec: shallow embedding and verification

Shallow embedding of the least-significant-bit steganography codec of this
repository. Two near-identical variants appear in the sources:

* `ImageSteganography` (`src/AIbot/stag.py`, `src/AIbot/hex1.py`):
  delimiter `"###END_OF_HIDDEN_DATA###"`; the extractor decodes the whole
  LSB stream to characters and searches the decoded text for the delimiter
  with `str.find`.
* `RGBImageSteganography` (`src/sdfbhzdf.py`): delimiter `"###END###"`;
  the extractor scans the raw LSB bit stream at byte-aligned offsets for
  the delimiter's bit pattern, accumulating decoded characters, and
  reports `"No hidden message found."` exactly when the accumulated
  message is empty.

Strings are modelled as lists of character code points (`List Nat`),
image sample buffers as flat lists of byte values (`List Nat`, each < 256,
mirroring the flattened `uint8` arrays the Python code mutates), and bit
strings as lists of `Nat` that are 0 or 1 (mirroring the `'0'`/`'1'`
character strings the Python code builds). File loading/saving (OpenCV /
PIL) is external I/O and is not part of the embedded core.
-/

set_option maxRecDepth 4096

/-- Little-endian binary digits of `n`, by repeated division; `fuel`-driven
structural recursion (the fuel `n` itself always suffices, since the value
is halved each step). Empty for `n = 0`. -/
def bitsLEAux : Nat → Nat → List Nat
  | 0, _ => []
  | fuel + 1, n => if n = 0 then [] else n % 2 :: bitsLEAux fuel (n / 2)

/-- Most-significant-bit-first minimal binary digits of `n` (empty for 0). -/
def natBits (n : Nat) : List Nat := (bitsLEAux n n).reverse

/-- Python `format(n, '08b')`: the minimal binary representation of `n`,
zero-padded on the left to at least 8 digits.  For `n ≥ 256` this yields
*more* than 8 digits (no truncation and no error). -/
def format08b (n : Nat) : List Nat :=
  List.replicate (8 - (natBits n).length) 0 ++ natBits n

/-- `string_to_binary` (stag.py/hex1.py line 14, and inlined at
sdfbhzdf.py line 46): `''.join(format(ord(char), '08b') for char in text)`. -/
def string_to_binary (text : List Nat) : List Nat :=
  (text.map format08b).flatten

/-- Python `int(byte, 2)`: the value of a most-significant-bit-first binary
digit list. -/
def bitsVal (bits : List Nat) : Nat :=
  bits.foldl (fun acc b => 2 * acc + b) 0

/-- The grouping loop of `binary_to_string`: repeatedly take 8 bits and
decode them with `int(byte, 2)`, until the input is exhausted.  Structural
on the fuel; `chunksToChars` below always passes enough fuel. -/
def chunksAux : Nat → List Nat → List Nat
  | 0, _ => []
  | fuel + 1, l =>
    if l.isEmpty then [] else bitsVal (l.take 8) :: chunksAux fuel (l.drop 8)

/-- `for i in range(0, len(binary), 8): chars.append(chr(int(binary[i:i+8], 2)))`. -/
def chunksToChars (l : List Nat) : List Nat := chunksAux l.length l

/-- `binary_to_string` (stag.py/hex1.py lines 17-24): first truncate to a
multiple of 8 bits (`binary[:len(binary) - (len(binary) % 8)]`), then decode
each 8-bit group MSB-first. -/
def binary_to_string (binary : List Nat) : List Nat :=
  chunksToChars (binary.take (binary.length - binary.length % 8))

/-- The shared embedding step (stag.py lines 44-47, sdfbhzdf.py lines 51-53):
`flat_img[:n] = (flat_img[:n] & 0xFE) | binary_array` on a copy of the
flattened carrier; samples beyond the bitstream are untouched. -/
def embedLSB (img bits : List Nat) : List Nat :=
  List.zipWith (fun s b => (s &&& 0xFE) ||| b) (img.take bits.length) bits
    ++ img.drop bits.length

/-- Python `str.find` for lists: index of the first position at which `pat`
is a prefix of the corresponding suffix, `none` when absent (Python's `-1`). -/
def strFind (pat : List Nat) : List Nat → Option Nat
  | [] => if pat.isPrefixOf ([] : List Nat) then some 0 else none
  | c :: t => if pat.isPrefixOf (c :: t) then some 0 else (strFind pat t).map (· + 1)

/-- Whether `pat` occurs as a contiguous subsequence of `l` (used to state
claim premises about delimiter occurrences). -/
def containsSeq (pat l : List Nat) : Bool :=
  (List.range (l.length + 1)).any fun i => pat.isPrefixOf (l.drop i)

namespace ImageSteganography

/-- `self.delimiter = "###END_OF_HIDDEN_DATA###"` (stag.py line 11). -/
def delimiter : List Nat :=
  [35, 35, 35, 69, 78, 68, 95, 79, 70, 95, 72, 73, 68, 68, 69, 78, 95, 68,
   65, 84, 65, 35, 35, 35]

/-- The codes of `"No hidden text found or delimiter not detected"`
(stag.py line 77), the no-data result of the extractor. -/
def noHiddenTextMsg : List Nat :=
  [78, 111, 32, 104, 105, 100, 100, 101, 110, 32, 116, 101, 120, 116, 32,
   102, 111, 117, 110, 100, 32, 111, 114, 32, 100, 101, 108, 105, 109, 105,
   116, 101, 114, 32, 110, 111, 116, 32, 100, 101, 116, 101, 99, 116, 101,
   100]

/-- Core of `hide_text_in_image` (stag.py lines 26-58), after the image is
loaded as a flat `uint8` buffer: frame the text with the delimiter, encode
to bits, validate against the capacity (`img.size`, the number of samples),
and either raise (`Image too small to hold data. Required: ... Available:
...` -- modelled as `Except.error (required, available)`, the two figures
carried by the message) before anything is mutated, or return the embedded
copy. -/
def hide_text_in_image (img text : List Nat) : Except (Nat × Nat) (List Nat) :=
  let binary_data := string_to_binary (text ++ delimiter)
  if binary_data.length > img.length then
    Except.error (binary_data.length, img.length)
  else
    Except.ok (embedLSB img binary_data)

/-- Core of `extract_text_from_image` (stag.py lines 60-77): decode every
sample's low bit, turn the whole bit stream into text, and search for the
delimiter; return the text before it, or the fixed no-data message. -/
def extract_text_from_image (img : List Nat) : List Nat :=
  let binary_data := img.map (fun p => p &&& 1)
  let extracted_text := binary_to_string binary_data
  match strFind delimiter extracted_text with
  | some delimiter_pos => extracted_text.take delimiter_pos
  | none => noHiddenTextMsg

end ImageSteganography

namespace RGBImageSteganography

/-- `self.delimiter = "###END###"` (sdfbhzdf.py line 8). -/
def delimiter : List Nat := [35, 35, 35, 69, 78, 68, 35, 35, 35]

/-- `delimiter_bits = ''.join(format(ord(c), '08b') for c in self.delimiter)`
(sdfbhzdf.py line 71). -/
def delimiter_bits : List Nat := string_to_binary delimiter

/-- The codes of `"No hidden message found."` (sdfbhzdf.py line 99). -/
def noHiddenMsg : List Nat :=
  [78, 111, 32, 104, 105, 100, 100, 101, 110, 32, 109, 101, 115, 115, 97,
   103, 101, 32, 102, 111, 117, 110, 100, 46]

/-- Core of `hide_text_in_image` (sdfbhzdf.py lines 39-61) on the flat RGB
sample buffer: frame, encode, compare against `width * height * 3` (the
flat buffer's length), and embed bit by bit.  The failure branch only logs
and returns `False`, producing no buffer (modelled as `none`). -/
def hide_text_in_image (pixels text : List Nat) : Option (List Nat) :=
  let binary_text := string_to_binary (text ++ delimiter)
  let max_bits := pixels.length
  if binary_text.length > max_bits then none
  else some (embedLSB pixels binary_text)

/-- The extraction loop of sdfbhzdf.py lines 73-79: walk the LSB stream 8
bits at a time; before decoding each group, stop if the delimiter's 72-bit
pattern starts here (`i + len(delimiter_bits) <= len(binary_data) and
binary_data[i:i+len(delimiter_bits)] == delimiter_bits`, which is exactly
`delimiter_bits.isPrefixOf` of the remaining suffix); otherwise append
`chr(int(byte, 2))` -- including for a trailing group of fewer than 8 bits. -/
def scanAux : Nat → List Nat → List Nat
  | 0, _ => []
  | fuel + 1, bits =>
    if bits.isEmpty then []
    else if delimiter_bits.isPrefixOf bits then []
    else bitsVal (bits.take 8) :: scanAux fuel (bits.drop 8)

/-- Core of `extract_text_from_image` (sdfbhzdf.py lines 63-101): scan the
LSB stream for the delimiter, accumulating decoded characters; if the
accumulated message is nonempty return it (even when no delimiter was ever
found), otherwise return `"No hidden message found."`. -/
def extract_text_from_image (pixels : List Nat) : List Nat :=
  let binary_data := pixels.map (fun p => p &&& 1)
  let message := scanAux binary_data.length binary_data
  if message.isEmpty then noHiddenMsg else message

end RGBImageSteganography

/-! ## Basic facts about the bit codec -/

theorem format08b_explicit : ∀ c, c < 256 → format08b c =
    [c / 128 % 2, c / 64 % 2, c / 32 % 2, c / 16 % 2,
     c / 8 % 2, c / 4 % 2, c / 2 % 2, c % 2] := by decide

theorem format08b_length : ∀ c, c < 256 → (format08b c).length = 8 := by decide

theorem bitsVal_format08b : ∀ c, c < 256 → bitsVal (format08b c) = c := by decide

theorem embed_sample_lsb : ∀ s, s < 256 → ∀ b, b < 2 →
    ((s &&& 0xFE) ||| b) &&& 1 = b := by decide

theorem and_one_le_one (n : Nat) : n &&& 1 ≤ 1 := by
  rw [Nat.and_one_is_mod]
  omega

theorem bitsLEAux_mem : ∀ fuel n b, b ∈ bitsLEAux fuel n → b ≤ 1 := by
  intro fuel
  induction fuel with
  | zero => intro n b h; simp [bitsLEAux] at h
  | succ fuel ih =>
      intro n b h
      by_cases hn : n = 0
      · simp [bitsLEAux, hn] at h
      · simp only [bitsLEAux, if_neg hn, List.mem_cons] at h
        rcases h with h | h
        · omega
        · exact ih _ _ h

theorem format08b_bits_le (c : Nat) : ∀ b ∈ format08b c, b ≤ 1 := by
  intro b hb
  simp only [format08b, natBits, List.mem_append, List.mem_reverse,
    List.mem_replicate] at hb
  rcases hb with hb | hb
  · omega
  · exact bitsLEAux_mem _ _ _ hb

@[simp] theorem s2b_nil : string_to_binary [] = [] := rfl

theorem s2b_cons (c : Nat) (t : List Nat) :
    string_to_binary (c :: t) = format08b c ++ string_to_binary t := by
  simp [string_to_binary]

theorem s2b_append (u v : List Nat) :
    string_to_binary (u ++ v) = string_to_binary u ++ string_to_binary v := by
  simp [string_to_binary]

theorem s2b_bits_le (t : List Nat) : ∀ b ∈ string_to_binary t, b ≤ 1 := by
  intro b hb
  simp only [string_to_binary, List.mem_flatten, List.mem_map] at hb
  obtain ⟨l, ⟨c, _, rfl⟩, hbl⟩ := hb
  exact format08b_bits_le c b hbl

theorem s2b_length (t : List Nat) (h : ∀ c ∈ t, c < 256) :
    (string_to_binary t).length = 8 * t.length := by
  induction t with
  | nil => simp
  | cons c t ih =>
      rw [s2b_cons, List.length_append,
        format08b_length c (h c (List.mem_cons_self c t)),
        ih fun x hx => h x (List.mem_cons_of_mem c hx), List.length_cons]
      ring

/-! ## `isPrefixOf` characterised through `take` -/

theorem isPrefixOf_iff_take (l₁ l₂ : List Nat) :
    l₁.isPrefixOf l₂ = true ↔ l₂.take l₁.length = l₁ := by
  induction l₁ generalizing l₂ with
  | nil => simp [List.isPrefixOf]
  | cons a t ih =>
      cases l₂ with
      | nil => simp [List.isPrefixOf]
      | cons b t₂ =>
          simp only [List.isPrefixOf, Bool.and_eq_true, beq_iff_eq,
            List.length_cons, List.take_succ_cons, List.cons.injEq, ih]
          exact and_congr (by omega) Iff.rfl

theorem isPrefixOf_length_le {l₁ l₂ : List Nat} (h : l₁.isPrefixOf l₂ = true) :
    l₁.length ≤ l₂.length := by
  rw [isPrefixOf_iff_take] at h
  have := congrArg List.length h
  simp only [List.length_take] at this
  omega

theorem isPrefixOf_append_left {pat x y : List Nat}
    (h : pat.isPrefixOf (x ++ y) = true) (hle : pat.length ≤ x.length) :
    pat.isPrefixOf x = true := by
  rw [isPrefixOf_iff_take] at h ⊢
  rwa [List.take_append_eq_append_take, Nat.sub_eq_zero_of_le hle,
    List.take_zero, List.append_nil] at h

theorem isPrefixOf_append_ext {pat x : List Nat} (y : List Nat)
    (h : pat.isPrefixOf x = true) : pat.isPrefixOf (x ++ y) = true := by
  have hle := isPrefixOf_length_le h
  rw [isPrefixOf_iff_take] at h ⊢
  rwa [List.take_append_eq_append_take, Nat.sub_eq_zero_of_le hle,
    List.take_zero, List.append_nil]

theorem isPrefixOf_append_both (x u v : List Nat) :
    (x ++ u).isPrefixOf (x ++ v) = u.isPrefixOf v := by
  induction x with
  | nil => simp
  | cons a t ih => simpa [List.isPrefixOf] using ih

theorem isPrefixOf_self (l : List Nat) : l.isPrefixOf l = true := by
  rw [isPrefixOf_iff_take, List.take_length]

/-! ## `strFind`: first-occurrence characterisation -/

theorem strFind_eq_some_of (pat : List Nat) :
    ∀ (k : Nat) (s : List Nat),
      (∀ j, j < k → ¬ pat.isPrefixOf (s.drop j) = true) →
      pat.isPrefixOf (s.drop k) = true →
      strFind pat s = some k := by
  intro k
  induction k with
  | zero =>
      intro s _ hk
      rw [List.drop_zero] at hk
      cases s with
      | nil => simp [strFind, hk]
      | cons c t => simp [strFind, hk]
  | succ k ih =>
      intro s hlt hk
      cases s with
      | nil =>
          exfalso
          refine hlt 0 (Nat.succ_pos k) ?_
          simp only [List.drop_nil] at hk
          simpa using hk
      | cons c t =>
          have h0 : ¬ pat.isPrefixOf (c :: t) = true := by
            have := hlt 0 (Nat.succ_pos k)
            simpa using this
          have ht : strFind pat t = some k := by
            refine ih t (fun j hj => ?_) ?_
            · have := hlt (j + 1) (by omega)
              simpa using this
            · simpa using hk
          simp [strFind, h0, ht]

theorem strFind_some_prefix (pat : List Nat) :
    ∀ (s : List Nat) (k : Nat), strFind pat s = some k →
      pat.isPrefixOf (s.drop k) = true := by
  intro s
  induction s with
  | nil =>
      intro k h
      by_cases hp : pat.isPrefixOf ([] : List Nat) = true
      · simp only [strFind, if_pos hp, Option.some.injEq] at h
        subst h
        simpa using hp
      · simp [strFind, hp] at h
  | cons c t ih =>
      intro k h
      by_cases hp : pat.isPrefixOf (c :: t) = true
      · simp only [strFind, if_pos hp, Option.some.injEq] at h
        subst h
        simpa using hp
      · simp only [strFind, if_neg hp] at h
        cases hfind : strFind pat t with
        | none => rw [hfind] at h; simp at h
        | some k' =>
            rw [hfind] at h
            simp only [Option.map_some', Option.some.injEq] at h
            subst h
            simpa using ih k' hfind

/-! ## The 8-bit grouping loop -/

theorem chunksAux_nil : ∀ fuel, chunksAux fuel [] = [] := by
  intro fuel
  cases fuel <;> simp [chunksAux]

theorem chunksAux_congr : ∀ (f : Nat) (g : Nat) (l : List Nat),
    l.length ≤ f → l.length ≤ g → chunksAux f l = chunksAux g l := by
  intro f
  induction f with
  | zero =>
      intro g l hf _
      have hl : l = [] := List.length_eq_zero.mp (Nat.le_zero.mp hf)
      subst hl
      rw [chunksAux_nil, chunksAux_nil]
  | succ f ih =>
      intro g l hf hg
      cases l with
      | nil => rw [chunksAux_nil, chunksAux_nil]
      | cons c t =>
          cases g with
          | zero => simp at hg
          | succ g =>
              simp only [chunksAux, List.isEmpty_cons, Bool.false_eq_true,
                if_false]
              congr 1
              refine ih g ((c :: t).drop 8) ?_ ?_ <;>
                simp only [List.length_drop, List.length_cons] at * <;> omega

theorem chunksToChars_step (l : List Nat) (h : l ≠ []) :
    chunksToChars l = bitsVal (l.take 8) :: chunksToChars (l.drop 8) := by
  cases l with
  | nil => exact absurd rfl h
  | cons c t =>
      show chunksAux (t.length + 1) (c :: t) = _
      simp only [chunksAux, List.isEmpty_cons, Bool.false_eq_true, if_false]
      congr 1
      refine chunksAux_congr t.length ((c :: t).drop 8).length _ ?_ le_rfl
      simp only [List.length_drop, List.length_cons]
      omega

theorem chunksToChars_block (a l : List Nat) (ha : a.length = 8) :
    chunksToChars (a ++ l) = bitsVal a :: chunksToChars l := by
  have hne : a ++ l ≠ [] := by
    intro hc
    have := congrArg List.length hc
    simp [ha] at this
  rw [chunksToChars_step _ hne]
  congr 1
  · congr 1
    rw [List.take_append_eq_append_take, ← ha, List.take_length,
      Nat.sub_self, List.take_zero, List.append_nil]
  · congr 1
    rw [List.drop_append_eq_append_drop, ← ha, List.drop_length,
      Nat.sub_self, List.drop_zero, List.nil_append]

theorem chunksToChars_s2b_append (u m : List Nat) (h : ∀ c ∈ u, c < 256) :
    chunksToChars (string_to_binary u ++ m) = u ++ chunksToChars m := by
  induction u with
  | nil => simp
  | cons c u' ih =>
      rw [s2b_cons, List.append_assoc,
        chunksToChars_block _ _ (format08b_length c (h c (List.mem_cons_self c u'))),
        bitsVal_format08b c (h c (List.mem_cons_self c u')),
        ih fun x hx => h x (List.mem_cons_of_mem c hx), List.cons_append]

theorem chunksAux_len : ∀ (f : Nat) (l : List Nat), l.length ≤ f →
    8 ∣ l.length → (chunksAux f l).length = l.length / 8 := by
  intro f
  induction f with
  | zero =>
      intro l hf _
      have hl : l = [] := List.length_eq_zero.mp (Nat.le_zero.mp hf)
      subst hl
      simp [chunksAux_nil]
  | succ f ih =>
      intro l hf hdvd
      cases l with
      | nil => simp [chunksAux_nil]
      | cons c t =>
          have hpos : 0 < (c :: t).length := by simp
          have h8 : 8 ≤ (c :: t).length := Nat.le_of_dvd hpos hdvd
          simp only [chunksAux, List.isEmpty_cons, Bool.false_eq_true, if_false,
            List.length_cons]
          have hlen : ((c :: t).drop 8).length = (c :: t).length - 8 :=
            List.length_drop 8 (c :: t)
          have ihh := ih ((c :: t).drop 8)
            (by simp only [hlen, List.length_cons] at *; omega)
            (by rw [hlen]; exact Nat.dvd_sub' hdvd (dvd_refl 8))
          rw [ihh, hlen]
          simp only [List.length_cons] at *
          omega

theorem chunksToChars_length (l : List Nat) (h : 8 ∣ l.length) :
    (chunksToChars l).length = l.length / 8 :=
  chunksAux_len l.length l le_rfl h

theorem chunksToChars_get : ∀ (i : Nat) (l : List Nat), 8 * (i + 1) ≤ l.length →
    (chunksToChars l).get? i = some (bitsVal ((l.drop (8 * i)).take 8)) := by
  intro i
  induction i with
  | zero =>
      intro l hl
      have hne : l ≠ [] := by
        intro hc
        subst hc
        simp at hl
      rw [chunksToChars_step l hne]
      simp
  | succ i ih =>
      intro l hl
      have hne : l ≠ [] := by
        intro hc
        subst hc
        simp at hl
      rw [chunksToChars_step l hne]
      show (chunksToChars (l.drop 8)).get? i = _
      have hlen : (l.drop 8).length = l.length - 8 := List.length_drop 8 l
      have hle : 8 * (i + 1) ≤ (l.drop 8).length := by
        rw [hlen]
        omega
      have harith : 8 + 8 * i = 8 * (i + 1) := by ring
      rw [ih (l.drop 8) hle, List.drop_drop, harith]

theorem chunksToChars_drop : ∀ (k : Nat) (l : List Nat),
    (chunksToChars l).drop k = chunksToChars (l.drop (8 * k)) := by
  intro k
  induction k with
  | zero => simp
  | succ k ih =>
      intro l
      cases l with
      | nil => simp [chunksToChars, chunksAux_nil]
      | cons c t =>
          rw [chunksToChars_step (c :: t) (by simp), List.drop_succ_cons,
            ih ((c :: t).drop 8), List.drop_drop]
          congr 2
          omega

/-! ## Structural equations for the embedding step -/

theorem embedLSB_nil (img : List Nat) : embedLSB img [] = img := by
  simp [embedLSB]

theorem embedLSB_nil_left (bits : List Nat) : embedLSB [] bits = [] := by
  simp [embedLSB]

theorem embedLSB_cons (c b : Nat) (cs bs : List Nat) :
    embedLSB (c :: cs) (b :: bs) = ((c &&& 0xFE) ||| b) :: embedLSB cs bs := by
  simp [embedLSB, List.take_succ_cons, List.drop_succ_cons]

theorem embedLSB_length (img bits : List Nat) :
    (embedLSB img bits).length = img.length := by
  induction bits generalizing img with
  | nil => rw [embedLSB_nil]
  | cons b bs ih =>
      cases img with
      | nil => rw [embedLSB_nil_left]
      | cons c cs =>
          rw [embedLSB_cons]
          simp [ih]

theorem embedLSB_get_ge (bits : List Nat) : ∀ (img : List Nat) (i : Nat),
    bits.length ≤ i → (embedLSB img bits).get? i = img.get? i := by
  induction bits with
  | nil =>
      intro img i _
      rw [embedLSB_nil]
  | cons b bs ih =>
      intro img i hi
      cases img with
      | nil => rw [embedLSB_nil_left]
      | cons c cs =>
          cases i with
          | zero => simp at hi
          | succ i =>
              rw [embedLSB_cons, List.get?_cons_succ, List.get?_cons_succ]
              exact ih cs i (by simpa using hi)

theorem embedLSB_getD_lt (bits : List Nat) : ∀ (img : List Nat) (i : Nat),
    bits.length ≤ img.length → i < bits.length →
    (embedLSB img bits).getD i 0 = ((img.getD i 0) &&& 0xFE) ||| (bits.getD i 0) := by
  induction bits with
  | nil =>
      intro img i _ hi
      simp at hi
  | cons b bs ih =>
      intro img i hlen hi
      cases img with
      | nil => simp at hlen
      | cons c cs =>
          rw [embedLSB_cons]
          cases i with
          | zero => simp
          | succ i =>
              rw [List.getD_cons_succ, List.getD_cons_succ, List.getD_cons_succ]
              exact ih cs i (by simpa using hlen) (by simpa using hi)

theorem embedLSB_lsb_map (bits : List Nat) : ∀ (img : List Nat),
    (∀ s ∈ img, s < 256) → (∀ b ∈ bits, b ≤ 1) → bits.length ≤ img.length →
    (embedLSB img bits).map (fun p => p &&& 1)
      = bits ++ (img.drop bits.length).map (fun p => p &&& 1) := by
  induction bits with
  | nil =>
      intro img _ _ _
      rw [embedLSB_nil]
      simp
  | cons b bs ih =>
      intro img hs hb hlen
      cases img with
      | nil => simp at hlen
      | cons c cs =>
          rw [embedLSB_cons]
          simp only [List.map_cons, List.length_cons, List.drop_succ_cons,
            List.cons_append, List.cons.injEq]
          constructor
          · have hblt : b < 2 := by
              have := hb b (List.mem_cons_self b bs)
              omega
            exact embed_sample_lsb c (hs c (List.mem_cons_self c cs)) b hblt
          · exact ih cs (fun s h => hs s (List.mem_cons_of_mem c h))
              (fun x h => hb x (List.mem_cons_of_mem b h))
              (by simpa using hlen)

/-! ## One decoded byte determines its eight source bits -/

theorem bitsVal_explicit (b0 b1 b2 b3 b4 b5 b6 b7 : Nat) :
    bitsVal [b0, b1, b2, b3, b4, b5, b6, b7]
      = 128 * b0 + 64 * b1 + 32 * b2 + 16 * b3 + 8 * b4 + 4 * b5 + 2 * b6 + b7 := by
  simp only [bitsVal, List.foldl_cons, List.foldl_nil]
  ring

theorem format08b_bitsVal (bs : List Nat) (h8 : bs.length = 8)
    (hb : ∀ b ∈ bs, b ≤ 1) : format08b (bitsVal bs) = bs := by
  rcases bs with _ | ⟨b0, _ | ⟨b1, _ | ⟨b2, _ | ⟨b3, _ | ⟨b4, _ | ⟨b5, _ |
    ⟨b6, _ | ⟨b7, _ | ⟨b8, t⟩⟩⟩⟩⟩⟩⟩⟩⟩ <;> simp only [List.length_nil,
      List.length_cons] at h8 <;> try omega
  have h0 : b0 ≤ 1 := hb b0 (by simp)
  have h1 : b1 ≤ 1 := hb b1 (by simp)
  have h2 : b2 ≤ 1 := hb b2 (by simp)
  have h3 : b3 ≤ 1 := hb b3 (by simp)
  have h4 : b4 ≤ 1 := hb b4 (by simp)
  have h5 : b5 ≤ 1 := hb b5 (by simp)
  have h6 : b6 ≤ 1 := hb b6 (by simp)
  have h7 : b7 ≤ 1 := hb b7 (by simp)
  have hv := bitsVal_explicit b0 b1 b2 b3 b4 b5 b6 b7
  have hlt : bitsVal [b0, b1, b2, b3, b4, b5, b6, b7] < 256 := by
    rw [hv]
    omega
  rw [format08b_explicit _ hlt, hv]
  simp only [List.cons.injEq, and_true]
  refine ⟨by omega, by omega, by omega, by omega, by omega, by omega,
    by omega, by omega⟩

/-- A string whose character codes are bytes is a prefix of the decoded
characters exactly when its bit encoding is a prefix of the source bits
(the forward direction, which the no-data analysis needs). -/
theorem s2b_isPrefixOf_of_chunks (pat : List Nat) :
    ∀ (m : List Nat), (∀ c ∈ pat, c < 256) → (∀ b ∈ m, b ≤ 1) →
    8 ∣ m.length → pat.isPrefixOf (chunksToChars m) = true →
    (string_to_binary pat).isPrefixOf m = true := by
  induction pat with
  | nil =>
      intro m _ _ _ _
      rw [s2b_nil]
      cases m <;> rfl
  | cons c pat ih =>
      intro m hpat hm hdvd hpre
      have hmne : m ≠ [] := by
        intro hc
        subst hc
        simp only [chunksToChars, List.length_nil, chunksAux_nil] at hpre
        exact absurd hpre (by simp [List.isPrefixOf])
      have h8 : 8 ≤ m.length := Nat.le_of_dvd (List.length_pos.mpr hmne) hdvd
      rw [chunksToChars_step m hmne] at hpre
      simp only [List.isPrefixOf, Bool.and_eq_true, beq_iff_eq] at hpre
      obtain ⟨hc, hrest⟩ := hpre
      have htake_len : (m.take 8).length = 8 := by
        rw [List.length_take]
        exact min_eq_left h8
      have htake_bits : ∀ b ∈ m.take 8, b ≤ 1 :=
        fun b hb => hm b (List.mem_of_mem_take hb)
      have hfmt : format08b c = m.take 8 := by
        rw [hc]
        exact format08b_bitsVal _ htake_len htake_bits
      rw [s2b_cons, hfmt]
      have hsplit : ((m.take 8) ++ string_to_binary pat).isPrefixOf
          ((m.take 8) ++ m.drop 8) = true := by
        rw [isPrefixOf_append_both]
        refine ih (m.drop 8) (fun x hx => hpat x (List.mem_cons_of_mem c hx))
          (fun b hb => hm b (List.mem_of_mem_drop hb)) ?_ hrest
        rw [List.length_drop]
        exact Nat.dvd_sub' hdvd (dvd_refl 8)
      rwa [List.take_append_drop] at hsplit

/-! ## `binary_to_string` -/

theorem binary_to_string_of_dvd (l : List Nat) (h : l.length % 8 = 0) :
    binary_to_string l = chunksToChars l := by
  unfold binary_to_string
  rw [h, Nat.sub_zero, List.take_length]

theorem binary_to_string_append_block (u rest : List Nat)
    (h : u.length % 8 = 0) :
    binary_to_string (u ++ rest)
      = chunksToChars (u ++ rest.take (rest.length - rest.length % 8)) := by
  unfold binary_to_string
  have h1 : (u ++ rest).take ((u ++ rest).length - (u ++ rest).length % 8)
      = u ++ rest.take (rest.length - rest.length % 8) := by
    rw [List.take_append_eq_append_take]
    have e1 : u.take ((u ++ rest).length - (u ++ rest).length % 8) = u :=
      List.take_of_length_le (by rw [List.length_append]; omega)
    have e2 : (u ++ rest).length - (u ++ rest).length % 8 - u.length
        = rest.length - rest.length % 8 := by
      rw [List.length_append]
      omega
    rw [e1, e2]
  rw [h1]

theorem extract_eq_found (img : List Nat) (k : Nat)
    (h : strFind ImageSteganography.delimiter
        (binary_to_string (img.map (fun p => p &&& 1))) = some k) :
    ImageSteganography.extract_text_from_image img
      = (binary_to_string (img.map (fun p => p &&& 1))).take k := by
  simp only [ImageSteganography.extract_text_from_image, h]

theorem extract_eq_msg (img : List Nat)
    (h : strFind ImageSteganography.delimiter
        (binary_to_string (img.map (fun p => p &&& 1))) = none) :
    ImageSteganography.extract_text_from_image img
      = ImageSteganography.noHiddenTextMsg := by
  simp only [ImageSteganography.extract_text_from_image, h]

/-- Core extraction fact for the `ImageSteganography` pipeline: after
embedding the framed payload `P ++ delimiter` into a byte-valued carrier of
sufficient capacity, if `k` is the first position of `P ++ delimiter` at
which the delimiter occurs (`k ≤ P.length`), the extractor returns exactly
the first `k` characters of the framed payload. -/
theorem extract_embed_core (carrier P : List Nat) (k : Nat)
    (Hsam : ∀ s ∈ carrier, s < 256) (HP : ∀ c ∈ P, c < 256)
    (Hcap : 8 * (P.length + ImageSteganography.delimiter.length)
      ≤ carrier.length)
    (Hk : k ≤ P.length)
    (Hfirst : ∀ j, j < k →
      ¬ ImageSteganography.delimiter.isPrefixOf
          ((P ++ ImageSteganography.delimiter).drop j) = true)
    (Hatk : ImageSteganography.delimiter.isPrefixOf
        ((P ++ ImageSteganography.delimiter).drop k) = true) :
    ImageSteganography.extract_text_from_image
        (embedLSB carrier
          (string_to_binary (P ++ ImageSteganography.delimiter)))
      = (P ++ ImageSteganography.delimiter).take k := by
  set D := ImageSteganography.delimiter with hD
  set bd := string_to_binary (P ++ D) with hbd
  have hDbytes : ∀ c ∈ D, c < 256 := by rw [hD]; decide
  have hPD : ∀ c ∈ P ++ D, c < 256 := by
    intro c hc
    rcases List.mem_append.mp hc with h | h
    · exact HP c h
    · exact hDbytes c h
  have hbdlen : bd.length = 8 * (P.length + D.length) := by
    rw [hbd, s2b_length _ hPD, List.length_append]
  have hcap : bd.length ≤ carrier.length := by
    rw [hbdlen]
    exact Hcap
  have hmod : bd.length % 8 = 0 := by
    rw [hbdlen]
    omega
  have hmap : (embedLSB carrier bd).map (fun p => p &&& 1)
      = bd ++ (carrier.drop bd.length).map (fun p => p &&& 1) :=
    embedLSB_lsb_map bd carrier Hsam (s2b_bits_le _) hcap
  set rest := (carrier.drop bd.length).map (fun p => p &&& 1) with hrest
  set g := chunksToChars (rest.take (rest.length - rest.length % 8)) with hg
  have hdec : binary_to_string ((embedLSB carrier bd).map (fun p => p &&& 1))
      = (P ++ D) ++ g := by
    rw [hmap, binary_to_string_append_block _ _ hmod,
      chunksToChars_s2b_append _ _ hPD, hg]
  have hPDlen : (P ++ D).length = P.length + D.length :=
    List.length_append P D
  have hfind : strFind D ((P ++ D) ++ g) = some k := by
    apply strFind_eq_some_of
    · intro j hj
      have hjP : j < P.length := lt_of_lt_of_le hj Hk
      have hdrop : ((P ++ D) ++ g).drop j = (P ++ D).drop j ++ g := by
        rw [List.drop_append_eq_append_drop,
          Nat.sub_eq_zero_of_le (by omega), List.drop_zero]
      intro hcontra
      rw [hdrop] at hcontra
      have hlen_dropped : D.length ≤ ((P ++ D).drop j).length := by
        rw [List.length_drop, hPDlen]
        omega
      exact Hfirst j hj (isPrefixOf_append_left hcontra hlen_dropped)
    · have hdropk : ((P ++ D) ++ g).drop k = (P ++ D).drop k ++ g := by
        rw [List.drop_append_eq_append_drop,
          Nat.sub_eq_zero_of_le (by omega), List.drop_zero]
      rw [hdropk]
      exact isPrefixOf_append_ext _ Hatk
  have hfind' : strFind D
      (binary_to_string ((embedLSB carrier bd).map (fun p => p &&& 1)))
      = some k := by
    rw [hdec]
    exact hfind
  rw [extract_eq_found _ k hfind', hdec, List.take_append_eq_append_take,
    Nat.sub_eq_zero_of_le (by omega), List.take_zero, List.append_nil]

theorem isPrefixOf_of_take {pat l : List Nat} {n : Nat}
    (h : pat.isPrefixOf (l.take n) = true) : pat.isPrefixOf l = true := by
  rw [isPrefixOf_iff_take] at h ⊢
  rw [List.take_take] at h
  have hlen := congrArg List.length h
  rw [List.length_take] at hlen
  have h2 : pat.length ⊓ n ⊓ l.length ≤ pat.length ⊓ n := inf_le_left
  rw [hlen] at h2
  have hpn : pat.length ⊓ n = pat.length := le_antisymm inf_le_left h2
  rw [hpn] at h
  exact h

/-! ## The claims -/

/-- Claim C2: embedding a framed payload whose bit-length exactly equals the
carrier capacity succeeds and produces the embedded buffer; a framed
bit-length of capacity + 1 fails with the capacity error carrying the
required and available bit counts, and produces no output buffer (the
source validates before copying/mutating, so the carrier is untouched). -/
theorem capacity_boundary (carrier carrier₂ text : List Nat)
    (h1 : (string_to_binary (text ++ ImageSteganography.delimiter)).length
      = carrier.length)
    (h2 : (string_to_binary (text ++ ImageSteganography.delimiter)).length
      = carrier₂.length + 1) :
    ImageSteganography.hide_text_in_image carrier text
      = Except.ok (embedLSB carrier
          (string_to_binary (text ++ ImageSteganography.delimiter)))
    ∧ ImageSteganography.hide_text_in_image carrier₂ text
      = Except.error
          ((string_to_binary (text ++ ImageSteganography.delimiter)).length,
            carrier₂.length) := by
  constructor
  · simp only [ImageSteganography.hide_text_in_image]
    rw [if_neg (by omega)]
  · simp only [ImageSteganography.hide_text_in_image]
    rw [if_pos (by omega)]

/-- Witness for C2 at a 192-sample and a 191-sample all-zero carrier with
the empty payload (framed bit-length 192). -/
theorem capacity_boundary_witness :
    ImageSteganography.hide_text_in_image (List.replicate 192 0) []
      = Except.ok (embedLSB (List.replicate 192 0)
          (string_to_binary ([] ++ ImageSteganography.delimiter)))
    ∧ ImageSteganography.hide_text_in_image (List.replicate 191 0) []
      = Except.error
          ((string_to_binary ([] ++ ImageSteganography.delimiter)).length,
            (List.replicate (191 : Nat) (0 : Nat)).length) :=
  capacity_boundary (List.replicate 192 0) (List.replicate 191 0) []
    (by decide) (by decide)

/-- Claim C3: for every bitstream and carrier with the bitstream no longer
than the carrier, the embedded output's sample at each position `i` inside
the bitstream is `(carrier[i] & 0xFE) | bits[i]` -- the low-order bit is
replaced, bits 1-7 kept. -/
theorem embed_write_formula (carrier bits : List Nat) (i : Nat)
    (h1 : bits.length ≤ carrier.length) (h2 : i < bits.length) :
    (embedLSB carrier bits).getD i 0
      = ((carrier.getD i 0) &&& 0xFE) ||| (bits.getD i 0) :=
  embedLSB_getD_lt bits carrier i h1 h2

/-- Witness for C3 at carrier `[200, 7]`, bits `[1, 0]`, position 1. -/
theorem embed_write_formula_witness :
    (embedLSB [200, 7] [1, 0]).getD 1 0
      = (([200, 7] : List Nat).getD 1 0 &&& 0xFE)
          ||| (([1, 0] : List Nat).getD 1 0) :=
  embed_write_formula [200, 7] [1, 0] 1 (by decide) (by decide)

/-- Claim C4: the embedded output has the same number of samples as the
carrier, and every sample at or beyond the bitstream length is exactly the
original carrier sample (all 8 bits). -/
theorem embed_frame_condition (carrier bits : List Nat)
    (_h : bits.length ≤ carrier.length) :
    (embedLSB carrier bits).length = carrier.length
    ∧ ∀ i, bits.length ≤ i →
        (embedLSB carrier bits).get? i = carrier.get? i :=
  ⟨embedLSB_length carrier bits, fun i hi => embedLSB_get_ge bits carrier i hi⟩

/-- Witness for C4 at carrier `[9, 10, 11]`, bits `[1]`, position 2. -/
theorem embed_frame_condition_witness :
    (embedLSB [9, 10, 11] [1]).length = ([9, 10, 11] : List Nat).length
    ∧ (embedLSB [9, 10, 11] [1]).get? 2 = ([9, 10, 11] : List Nat).get? 2 :=
  ⟨(embed_frame_condition [9, 10, 11] [1] (by decide)).1,
    (embed_frame_condition [9, 10, 11] [1] (by decide)).2 2 (by decide)⟩

/-- Claim C6 (amended): the encoder never fails; for characters with code
points in 0-255 it emits exactly their 8-bit MSB-first representation,
concatenated in order.  (A code point above 255 silently widens to more
than 8 bits instead of raising an error -- see the counterexample.) -/
theorem encode_byte_width (text : List Nat) (h : ∀ c ∈ text, c < 256) :
    string_to_binary text
      = (text.map (fun c => [c / 128 % 2, c / 64 % 2, c / 32 % 2, c / 16 % 2,
          c / 8 % 2, c / 4 % 2, c / 2 % 2, c % 2])).flatten := by
  unfold string_to_binary
  congr 1
  exact List.map_congr_left fun c hc => format08b_explicit c (h c hc)

/-- Witness for C6 at the single character `'A'` (code 65). -/
theorem encode_byte_width_witness :
    string_to_binary [65]
      = (([65] : List Nat).map (fun c =>
          [c / 128 % 2, c / 64 % 2, c / 32 % 2, c / 16 % 2,
           c / 8 % 2, c / 4 % 2, c / 2 % 2, c % 2])).flatten :=
  encode_byte_width [65] (by decide)

/-- Counterexample to claim C6 as stated: for the out-of-range code point
256 the encoder does not fail at all -- it returns a 9-bit group, so the
output is neither an error nor 8 bits per character. -/
theorem encode_byte_width_cex :
    string_to_binary [256] = [1, 0, 0, 0, 0, 0, 0, 0, 0]
    ∧ (string_to_binary [256]).length ≠ 8 * ([256] : List Nat).length :=
  ⟨rfl, by decide⟩

/-- Claim C9: decoding a bit string is total: it returns exactly
`⌊len/8⌋` characters, the `i`-th being the MSB-first value of bits
`8i..8i+8`, with any trailing partial group discarded. -/
theorem decode_totality (bits : List Nat) :
    (binary_to_string bits).length = bits.length / 8
    ∧ ∀ i, i < bits.length / 8 →
        (binary_to_string bits).get? i
          = some (bitsVal ((bits.drop (8 * i)).take 8)) := by
  have htake_len : (bits.take (bits.length - bits.length % 8)).length
      = bits.length - bits.length % 8 := by
    rw [List.length_take]
    exact min_eq_left (by omega)
  have hTd : 8 ∣ bits.length - bits.length % 8 :=
    ⟨bits.length / 8, by omega⟩
  constructor
  · unfold binary_to_string
    rw [chunksToChars_length _ (by rw [htake_len]; exact hTd), htake_len]
    omega
  · intro i hi
    unfold binary_to_string
    rw [chunksToChars_get i _ (by rw [htake_len]; omega)]
    rw [List.drop_take, List.take_take, min_eq_left (by omega)]

/-- Witness for C9 at the 9-bit input `[1,1,1,1,1,1,1,1,0]`: one character,
value 255, trailing bit discarded. -/
theorem decode_totality_witness :
    (binary_to_string [1, 1, 1, 1, 1, 1, 1, 1, 0]).length
      = ([1, 1, 1, 1, 1, 1, 1, 1, 0] : List Nat).length / 8
    ∧ (binary_to_string [1, 1, 1, 1, 1, 1, 1, 1, 0]).get? 0
      = some (bitsVal ((([1, 1, 1, 1, 1, 1, 1, 1, 0] : List Nat).drop (8 * 0)).take 8)) :=
  ⟨(decode_totality [1, 1, 1, 1, 1, 1, 1, 1, 0]).1,
    (decode_totality [1, 1, 1, 1, 1, 1, 1, 1, 0]).2 0 (by decide)⟩

/-- Claim C10: the bit codec round-trips: decoding the encoding of any
string of byte-valued characters returns the string exactly. -/
theorem codec_roundtrip (t : List Nat) (h : ∀ c ∈ t, c < 256) :
    binary_to_string (string_to_binary t) = t := by
  have hlen : (string_to_binary t).length = 8 * t.length := s2b_length t h
  have hmod : (string_to_binary t).length % 8 = 0 := by
    rw [hlen]
    omega
  rw [binary_to_string_of_dvd _ hmod]
  have key : chunksToChars (string_to_binary t ++ [])
      = t ++ chunksToChars [] := chunksToChars_s2b_append t [] h
  rw [List.append_nil] at key
  rw [show chunksToChars ([] : List Nat) = [] from rfl, List.append_nil] at key
  exact key

/-- Witness for C10 at `[0, 255, 7]`. -/
theorem codec_roundtrip_witness :
    binary_to_string (string_to_binary [0, 255, 7]) = [0, 255, 7] :=
  codec_roundtrip [0, 255, 7] (by decide)

/-- Claim C1 (amended): the round trip
`extract(embed(carrier, payload)) = payload` holds for byte-valued payloads
on byte-valued carriers of capacity at least
`8 * (len(payload) + len(delimiter))` provided the delimiter does not occur
in `payload ++ delimiter` before position `len(payload)` (in particular the
payload neither contains the delimiter nor ends in a fragment that
completes it). -/
theorem roundtrip_extract_embed (carrier text : List Nat)
    (Hsam : ∀ s ∈ carrier, s < 256) (Htext : ∀ c ∈ text, c < 256)
    (Hcap : 8 * (text.length + ImageSteganography.delimiter.length)
      ≤ carrier.length)
    (Hnocol : ∀ j, j < text.length →
      ¬ ImageSteganography.delimiter.isPrefixOf
          ((text ++ ImageSteganography.delimiter).drop j) = true) :
    ImageSteganography.hide_text_in_image carrier text
      = Except.ok (embedLSB carrier
          (string_to_binary (text ++ ImageSteganography.delimiter)))
    ∧ ImageSteganography.extract_text_from_image
        (embedLSB carrier
          (string_to_binary (text ++ ImageSteganography.delimiter)))
      = text := by
  have hDbytes : ∀ c ∈ ImageSteganography.delimiter, c < 256 := by decide
  have hPD : ∀ c ∈ text ++ ImageSteganography.delimiter, c < 256 := by
    intro c hc
    rcases List.mem_append.mp hc with h | h
    · exact Htext c h
    · exact hDbytes c h
  have hlen : (string_to_binary (text ++ ImageSteganography.delimiter)).length
      = 8 * (text.length + ImageSteganography.delimiter.length) := by
    rw [s2b_length _ hPD, List.length_append]
  constructor
  · simp only [ImageSteganography.hide_text_in_image]
    rw [if_neg (by omega)]
  · have hatk : ImageSteganography.delimiter.isPrefixOf
        ((text ++ ImageSteganography.delimiter).drop text.length) = true := by
      rw [List.drop_left]
      exact isPrefixOf_self _
    have core := extract_embed_core carrier text text.length Hsam Htext Hcap
      le_rfl Hnocol hatk
    rw [core, List.take_left]

/-- Witness for C1 at payload `"HI"` and a 210-sample carrier of value 200. -/
theorem roundtrip_extract_embed_witness :
    ImageSteganography.hide_text_in_image (List.replicate 210 200) [72, 73]
      = Except.ok (embedLSB (List.replicate 210 200)
          (string_to_binary ([72, 73] ++ ImageSteganography.delimiter)))
    ∧ ImageSteganography.extract_text_from_image
        (embedLSB (List.replicate 210 200)
          (string_to_binary ([72, 73] ++ ImageSteganography.delimiter)))
      = [72, 73] :=
  roundtrip_extract_embed (List.replicate 210 200) [72, 73]
    (by decide) (by decide) (by decide) (by decide)

/-- Counterexample to claim C1 as stated: the payload equal to the delimiter
itself is a string over the supported character range, and the 384-sample
carrier meets the stated capacity bound, yet extraction returns the empty
string, not the payload. -/
theorem roundtrip_extract_embed_cex :
    8 * (ImageSteganography.delimiter.length
        + ImageSteganography.delimiter.length)
      ≤ (List.replicate (384 : Nat) (0 : Nat)).length
    ∧ ImageSteganography.delimiter.all (fun c => decide (c < 256)) = true
    ∧ (ImageSteganography.hide_text_in_image (List.replicate 384 0)
        ImageSteganography.delimiter).map
        ImageSteganography.extract_text_from_image
      = Except.ok []
    ∧ ImageSteganography.delimiter ≠ [] :=
  ⟨by decide, by decide, rfl, by decide⟩

/-- Claim C7 (amended): in the `ImageSteganography` variant, extracting from
a carrier into which the empty payload was embedded yields the empty
string, which is distinct from the no-data sentinel.  (The
`RGBImageSteganography` variant instead reports "No hidden message found."
for an embedded empty payload -- see the counterexample.) -/
theorem empty_payload_distinct (carrier : List Nat)
    (Hsam : ∀ s ∈ carrier, s < 256)
    (Hcap : 8 * ImageSteganography.delimiter.length ≤ carrier.length) :
    ImageSteganography.extract_text_from_image
        (embedLSB carrier
          (string_to_binary ([] ++ ImageSteganography.delimiter))) = []
    ∧ ([] : List Nat) ≠ ImageSteganography.noHiddenTextMsg := by
  constructor
  · have hatk : ImageSteganography.delimiter.isPrefixOf
        ((([] : List Nat) ++ ImageSteganography.delimiter).drop 0) = true := by
      simp only [List.nil_append, List.drop_zero]
      exact isPrefixOf_self _
    have core := extract_embed_core carrier [] 0 Hsam (by simp)
      (by simpa using Hcap) le_rfl (fun j hj => absurd hj (Nat.not_lt_zero j))
      hatk
    simpa using core
  · decide

/-- Witness for C7 at a 192-sample all-zero carrier. -/
theorem empty_payload_distinct_witness :
    ImageSteganography.extract_text_from_image
        (embedLSB (List.replicate 192 0)
          (string_to_binary ([] ++ ImageSteganography.delimiter))) = []
    ∧ ([] : List Nat) ≠ ImageSteganography.noHiddenTextMsg :=
  empty_payload_distinct (List.replicate 192 0) (by decide) (by decide)

/-- Counterexample to claim C7 as stated: embedding the empty payload with
the `RGBImageSteganography` codec into an exactly-fitting 72-sample carrier
and extracting yields the no-data message, not the empty string -- the two
results are conflated, against the claim. -/
theorem empty_payload_distinct_cex :
    (RGBImageSteganography.hide_text_in_image (List.replicate 72 0) []).map
        RGBImageSteganography.extract_text_from_image
      = some RGBImageSteganography.noHiddenMsg
    ∧ RGBImageSteganography.noHiddenMsg ≠ ([] : List Nat) :=
  ⟨rfl, by decide⟩

/-- Claim C8 (amended): for a payload `a ++ delimiter ++ b`, extraction
after embedding returns `a`, provided the delimiter does not occur in
`a ++ delimiter` before position `len(a)` (merely requiring that `a` not
contain the delimiter is not enough -- see the counterexample). -/
theorem delimiter_collision_truncation (carrier a b : List Nat)
    (Hsam : ∀ s ∈ carrier, s < 256) (Ha : ∀ c ∈ a, c < 256)
    (Hb : ∀ c ∈ b, c < 256)
    (Hcap : 8 * ((a ++ ImageSteganography.delimiter ++ b).length
        + ImageSteganography.delimiter.length) ≤ carrier.length)
    (Hnocol : ∀ j, j < a.length →
      ¬ ImageSteganography.delimiter.isPrefixOf
          ((a ++ ImageSteganography.delimiter).drop j) = true) :
    ImageSteganography.hide_text_in_image carrier
        (a ++ ImageSteganography.delimiter ++ b)
      = Except.ok (embedLSB carrier (string_to_binary
          ((a ++ ImageSteganography.delimiter ++ b)
            ++ ImageSteganography.delimiter)))
    ∧ ImageSteganography.extract_text_from_image
        (embedLSB carrier (string_to_binary
          ((a ++ ImageSteganography.delimiter ++ b)
            ++ ImageSteganography.delimiter)))
      = a := by
  have hDbytes : ∀ c ∈ ImageSteganography.delimiter, c < 256 := by decide
  have HP : ∀ c ∈ a ++ ImageSteganography.delimiter ++ b, c < 256 := by
    intro c hc
    rcases List.mem_append.mp hc with h | h
    · rcases List.mem_append.mp h with h2 | h2
      · exact Ha c h2
      · exact hDbytes c h2
    · exact Hb c h
  have hfull : ∀ c ∈ (a ++ ImageSteganography.delimiter ++ b)
      ++ ImageSteganography.delimiter, c < 256 := by
    intro c hc
    rcases List.mem_append.mp hc with h | h
    · exact HP c h
    · exact hDbytes c h
  have hlen : (string_to_binary ((a ++ ImageSteganography.delimiter ++ b)
      ++ ImageSteganography.delimiter)).length
      = 8 * ((a ++ ImageSteganography.delimiter ++ b).length
          + ImageSteganography.delimiter.length) := by
    rw [s2b_length _ hfull, List.length_append]
  have Hfirst : ∀ j, j < a.length →
      ¬ ImageSteganography.delimiter.isPrefixOf
          (((a ++ ImageSteganography.delimiter ++ b)
            ++ ImageSteganography.delimiter).drop j) = true := by
    intro j hj hcontra
    have hassoc : (a ++ ImageSteganography.delimiter ++ b)
        ++ ImageSteganography.delimiter
        = (a ++ ImageSteganography.delimiter)
            ++ (b ++ ImageSteganography.delimiter) := by
      simp [List.append_assoc]
    rw [hassoc] at hcontra
    have hdropj : ((a ++ ImageSteganography.delimiter)
          ++ (b ++ ImageSteganography.delimiter)).drop j
        = (a ++ ImageSteganography.delimiter).drop j
            ++ (b ++ ImageSteganography.delimiter) := by
      rw [List.drop_append_eq_append_drop,
        Nat.sub_eq_zero_of_le (by simp only [List.length_append]; omega),
        List.drop_zero]
    rw [hdropj] at hcontra
    have hlen2 : ImageSteganography.delimiter.length
        ≤ ((a ++ ImageSteganography.delimiter).drop j).length := by
      simp only [List.length_drop, List.length_append]
      omega
    exact Hnocol j hj (isPrefixOf_append_left hcontra hlen2)
  have Hatk : ImageSteganography.delimiter.isPrefixOf
      (((a ++ ImageSteganography.delimiter ++ b)
        ++ ImageSteganography.delimiter).drop a.length) = true := by
    have hassoc2 : (a ++ ImageSteganography.delimiter ++ b)
        ++ ImageSteganography.delimiter
        = a ++ (ImageSteganography.delimiter ++ b
            ++ ImageSteganography.delimiter) := by
      simp [List.append_assoc]
    rw [hassoc2, List.drop_left]
    exact isPrefixOf_append_ext _
      (isPrefixOf_append_ext _ (isPrefixOf_self _))
  have Hk : a.length ≤ (a ++ ImageSteganography.delimiter ++ b).length := by
    simp only [List.length_append]
    omega
  constructor
  · simp only [ImageSteganography.hide_text_in_image]
    rw [if_neg (by omega)]
  · have core := extract_embed_core carrier
      (a ++ ImageSteganography.delimiter ++ b) a.length Hsam HP Hcap Hk
      Hfirst Hatk
    rw [core]
    have hassoc3 : (a ++ ImageSteganography.delimiter ++ b)
        ++ ImageSteganography.delimiter
        = a ++ (ImageSteganography.delimiter ++ b
            ++ ImageSteganography.delimiter) := by
      simp [List.append_assoc]
    rw [hassoc3, List.take_left]

/-- Witness for C8 at `a = "A"`, `b = "B"`, a 500-sample carrier. -/
theorem delimiter_collision_truncation_witness :
    ImageSteganography.hide_text_in_image (List.replicate 500 7)
        ([65] ++ ImageSteganography.delimiter ++ [66])
      = Except.ok (embedLSB (List.replicate 500 7)
          (string_to_binary (([65] ++ ImageSteganography.delimiter ++ [66])
            ++ ImageSteganography.delimiter)))
    ∧ ImageSteganography.extract_text_from_image
        (embedLSB (List.replicate 500 7)
          (string_to_binary (([65] ++ ImageSteganography.delimiter ++ [66])
            ++ ImageSteganography.delimiter)))
      = [65] :=
  delimiter_collision_truncation (List.replicate 500 7) [65] [66]
    (by decide) (by decide) (by decide) (by decide) (by decide)

/-- Counterexample to claim C8 as stated: `a` = the first 22 characters of
the delimiter does not contain the delimiter, yet for the payload
`a ++ delimiter ++ []` the decoded stream matches the delimiter already at
position 0 (the tail of `a` completes into the embedded delimiter), so
extraction returns the empty string instead of `a`. -/
theorem delimiter_collision_truncation_cex :
    containsSeq ImageSteganography.delimiter
        (ImageSteganography.delimiter.take 22) = false
    ∧ (ImageSteganography.hide_text_in_image (List.replicate 560 0)
        (ImageSteganography.delimiter.take 22
          ++ ImageSteganography.delimiter ++ [])).map
        ImageSteganography.extract_text_from_image
      = Except.ok []
    ∧ ImageSteganography.delimiter.take 22 ≠ [] :=
  ⟨by decide, rfl, by decide⟩

/-- Claim C5 (amended): in the `ImageSteganography` variant, a carrier whose
LSB stream contains no occurrence of the delimiter's bit pattern makes the
extractor report the fixed no-data message rather than the garbage decoded
from the LSBs.  (The `RGBImageSteganography` variant instead returns the
decoded garbage whenever it is nonempty -- see the counterexample.) -/
theorem no_data_scan (carrier : List Nat)
    (Hno : ∀ j, j < carrier.length →
      ¬ (string_to_binary ImageSteganography.delimiter).isPrefixOf
          ((carrier.map (fun p => p &&& 1)).drop j) = true) :
    ImageSteganography.extract_text_from_image carrier
      = ImageSteganography.noHiddenTextMsg := by
  apply extract_eq_msg
  cases hfind : strFind ImageSteganography.delimiter
      (binary_to_string (carrier.map (fun p => p &&& 1))) with
  | none => rfl
  | some k =>
      exfalso
      have hpre := strFind_some_prefix ImageSteganography.delimiter _ k hfind
      have hbits : ∀ x ∈ carrier.map (fun p => p &&& 1), x ≤ 1 := by
        intro x hx
        obtain ⟨p, _, rfl⟩ := List.mem_map.mp hx
        exact and_one_le_one p
      unfold binary_to_string at hpre
      rw [chunksToChars_drop k] at hpre
      set M := carrier.map (fun p => p &&& 1) with hM
      set T := M.length - M.length % 8 with hT
      have hXbits : ∀ bb ∈ (M.take T).drop (8 * k), bb ≤ 1 :=
        fun bb hb => hbits bb (List.mem_of_mem_take (List.mem_of_mem_drop hb))
      have hTlen : (M.take T).length = T := by
        rw [List.length_take]
        exact min_eq_left (by omega)
      have hXdvd : 8 ∣ ((M.take T).drop (8 * k)).length := by
        rw [List.length_drop, hTlen]
        have h1 : 8 ∣ T := ⟨M.length / 8, by omega⟩
        exact Nat.dvd_sub' h1 ⟨k, rfl⟩
      have hbitpre := s2b_isPrefixOf_of_chunks ImageSteganography.delimiter
        ((M.take T).drop (8 * k)) (by decide) hXbits hXdvd hpre
      rw [List.drop_take] at hbitpre
      have hMpre : (string_to_binary ImageSteganography.delimiter).isPrefixOf
          (M.drop (8 * k)) = true := isPrefixOf_of_take hbitpre
      have hlen192 : (string_to_binary ImageSteganography.delimiter).length
          = 192 := by decide
      have hle := isPrefixOf_length_le hMpre
      rw [hlen192, List.length_drop] at hle
      have hMlen : M.length = carrier.length := by
        rw [hM]
        exact List.length_map carrier _
      have h8k : 8 * k < carrier.length := by omega
      exact Hno (8 * k) h8k hMpre

/-- Witness for C5 at the 8-sample carrier of value 3 (LSB stream
`11111111`, which is too short to contain the 192-bit delimiter pattern). -/
theorem no_data_scan_witness :
    ImageSteganography.extract_text_from_image (List.replicate 8 3)
      = ImageSteganography.noHiddenTextMsg :=
  no_data_scan (List.replicate 8 3) (by decide)

/-- Counterexample to claim C5 as stated: the `RGBImageSteganography`
extractor, on an 8-sample all-zero carrier whose LSB stream contains no
occurrence of the delimiter, returns the string decoded from the LSBs
(the single character `chr(0)`), not the no-data result. -/
theorem no_data_scan_cex :
    containsSeq RGBImageSteganography.delimiter_bits
        ((List.replicate 8 0).map (fun p => p &&& 1)) = false
    ∧ RGBImageSteganography.extract_text_from_image (List.replicate 8 0)
      = [0]
    ∧ ([0] : List Nat) ≠ RGBImageSteganography.noHiddenMsg :=
  ⟨by decide, rfl, by decide⟩
